import Mathlib

/-!
Shallow embedding of the duui-pdf geometric reconciliation and heuristic
inference engine (files `src/bbox.py`, `src/utils.py`, `src/pdf_processor.py`,
`src/pdf_segmentation.py`).

Modelling conventions:
* A pandas DataFrame of OCR word records is a `List OcrRec`, in the frame's
  row order (the OCR engine's emission order).
* OCR pixel coordinates are integers (pytesseract emits integer pixel
  offsets); point-space and converted coordinates are rationals.
* `block_num` and `page_num` are integers, keys are `(block_num, page_num)`
  pairs.
* A pandas aggregation (`Series.min` / `Series.max`) over an empty selection
  yields NaN; this is modelled by `Option`: `none` is the NaN produced by an
  empty aggregate.  A comparison `x < NaN` is `False` in pandas, modelled by
  the `...LtOpt` helpers returning `false` on `none`.
* A Python runtime error (such as the `TypeError` raised by comparing `None`
  with an integer) makes the embedded function return `none` in `Option`.
-/

/-- One OCR word record: a row of the pytesseract output DataFrame
(columns `page_num`, `block_num`, `left`, `top`, `width`, `height`, `text`). -/
structure OcrRec where
  page_num : Int
  block_num : Int
  left : Int
  top : Int
  width : Int
  height : Int
  text : String
deriving DecidableEq

/-- A rectangle `(x0, top, x1, bottom)`, the universal 4-tuple representation
used by `bbox.py`; rational coordinates (floats in the source). -/
structure RectQ where
  x0 : ℚ
  top : ℚ
  x1 : ℚ
  bottom : ℚ
deriving DecidableEq

/-- The key of an OCR record: `(block_num, page_num)`. -/
def recKey (r : OcrRec) : Int × Int := (r.block_num, r.page_num)

/-- Minimum of a list of integers; `none` models pandas `Series.min()` of an
empty selection (NaN). -/
def minInt : List Int → Option Int
  | [] => none
  | x :: xs =>
    match minInt xs with
    | none => some x
    | some m => some (min x m)

/-- Maximum of a list of integers; `none` models pandas `Series.max()` of an
empty selection (NaN). -/
def maxInt : List Int → Option Int
  | [] => none
  | x :: xs =>
    match maxInt xs with
    | none => some x
    | some m => some (max x m)

/-- `calculate_bbox` (src/bbox.py lines 32-41): filter the OCR data by
`(block_num, page_num)` and aggregate `(min left, min top, max (left+width),
max (top+height))`, returned in the source's order `(x0, top, x1, bottom)`.
On an empty selection each pandas aggregate is NaN, modelled as `none`. -/
def calculate_bbox (ocr : List OcrRec) (block : Int) (page : Int) :
    Option Int × Option Int × Option Int × Option Int :=
  let block_data := ocr.filter (fun r => r.block_num == block && r.page_num == page)
  (minInt (block_data.map (·.left)),
   minInt (block_data.map (·.top)),
   maxInt (block_data.map (fun r => r.left + r.width)),
   maxInt (block_data.map (fun r => r.top + r.height)))

/-- The pixel→point mapping applied by `extract_text_from_bbox`
(src/bbox.py lines 56-73): scale by `pageWidth/1654` and `pageHeight/2339`
and pad 3 points outward on all four sides. -/
def extract_text_scaled_bbox (bbox : RectQ) (pageWidth pageHeight : ℚ) : RectQ :=
  let width_scale := pageWidth / 1654
  let height_scale := pageHeight / 2339
  let padding : ℚ := 3
  ⟨bbox.x0 * width_scale - padding,
   bbox.top * height_scale - padding,
   bbox.x1 * width_scale + padding,
   bbox.bottom * height_scale + padding⟩

/-- `convert_bbox_to_pixels` (src/bbox.py lines 94-117): the unpadded
point→pixel mapping, scaling by `1654/pageWidth` and `2339/pageHeight`. -/
def convert_bbox_to_pixels (bbox : RectQ) (pageWidth pageHeight : ℚ) : RectQ :=
  let width_scale := (1654 : ℚ) / pageWidth
  let height_scale := (2339 : ℚ) / pageHeight
  ⟨bbox.x0 * width_scale,
   bbox.top * height_scale,
   bbox.x1 * width_scale,
   bbox.bottom * height_scale⟩

/-- The rectangle-overlap test inlined in `get_table_block_nums`
(src/bbox.py lines 150-154): open-interval intersection. -/
def overlaps (a b : RectQ) : Bool :=
  decide (a.x0 < b.x1 ∧ a.x1 > b.x0 ∧ a.top < b.bottom ∧ a.bottom > b.top)

/-- The tight pixel box of one OCR word record,
`(left, top, left+width, top+height)` as in src/bbox.py lines 145-148. -/
def wordRect (r : OcrRec) : RectQ :=
  ⟨(r.left : ℚ), (r.top : ℚ), ((r.left + r.width : Int) : ℚ), ((r.top + r.height : Int) : ℚ)⟩

/-- `needle` matches at the start of `hay` (character-wise). -/
def tokAt : List Char → List Char → Bool
  | [], _ => true
  | _ :: _, [] => false
  | a :: as, b :: bs => a == b && tokAt as bs

/-- Python's substring containment `needle in hay` on character lists. -/
def hasTok (needle : List Char) : List Char → Bool
  | [] => needle.isEmpty
  | c :: rest => tokAt needle (c :: rest) || hasTok needle rest

/-- Python's `needle in hay` on strings. -/
def strHasTok (needle hay : String) : Bool :=
  hasTok needle.toList hay.toList

/-- Python set insertion, modelled on a duplicate-free list. -/
def insertSet (l : List Int) (x : Int) : List Int :=
  if x ∈ l then l else l ++ [x]

/-- The loop of `get_table_block_nums` (src/bbox.py lines 141-161): for each
word record whose tight box overlaps the target, add its block, and if the
very next record in order contains the token "Table", add that record's
block as well. -/
def tableLoop (target : RectQ) (acc : List Int) : List OcrRec → List Int
  | [] => acc
  | r :: rs =>
    if overlaps (wordRect r) target then
      let acc1 := insertSet acc r.block_num
      let acc2 :=
        match rs with
        | [] => acc1
        | nr :: _ => if strHasTok "Table" nr.text then insertSet acc1 nr.block_num else acc1
      tableLoop target acc2 rs
    else tableLoop target acc rs

/-- `get_table_block_nums` (src/bbox.py lines 120-162): filter the OCR data
to page `page_num + 1` and run the overlap/caption loop. -/
def get_table_block_nums (ocr : List OcrRec) (target : RectQ) (page_num : Int) : List Int :=
  tableLoop target [] (ocr.filter (fun r => r.page_num == page_num + 1))

/-- The loop of `get_figure_block_nums` (src/bbox.py lines 185-194): scan in
order; at the first record whose top exceeds the target bottom, return its
block if its text contains "Figure", else nothing, and stop. -/
def figLoop (bottom_target : ℚ) : List OcrRec → List Int
  | [] => []
  | r :: rs =>
    if bottom_target < (r.top : ℚ) then
      (if strHasTok "Figure" r.text then [r.block_num] else [])
    else figLoop bottom_target rs

/-- `get_figure_block_nums` (src/bbox.py lines 165-196): filter the OCR data
to page `page_num + 1` and scan for the caption block below the target. -/
def get_figure_block_nums (ocr : List OcrRec) (target : RectQ) (page_num : Int) : List Int :=
  figLoop target.bottom (ocr.filter (fun r => r.page_num == page_num + 1))

/-- An outline entry `(level, label, page)` as supplied by
`fitz.get_toc(simple=True)`. -/
structure TocEntry where
  level : Int
  label : String
  page : Int
deriving DecidableEq

/-- An outline entry after `get_index` appended its dotted index string. -/
structure TocIndexed where
  level : Int
  label : String
  page : Int
  index : String
deriving DecidableEq

/-- Python `int(c)` on a single character: the digit value, or a
`ValueError` (`none`) when the character is not a digit. -/
def pyDigit (c : Char) : Option Nat :=
  if c.isDigit then some (c.toNat - 48) else none

/-- Python `s[0]` parsed with `int`: the digit value of the first character
of `s` (`none` on an empty string or a non-digit character). -/
def firstDigit (s : String) : Option Nat :=
  match s.toList with
  | [] => none
  | c :: _ => pyDigit c

/-- Python `s[-1]` parsed with `int`: the digit value of the last character
of `s` (`none` on an empty string or a non-digit character). -/
def lastDigit (s : String) : Option Nat :=
  match s.toList.reverse with
  | [] => none
  | c :: _ => pyDigit c

/-- Python `s[:-2]`: the string with its last two characters removed. -/
def dropLastTwo (s : String) : String :=
  String.mk s.toList.dropLast.dropLast

/-- One step of `get_index` (src/utils.py lines 18-25): given the previous
entry (with its already-assigned index) and the current entry, compute the
current entry's index string.  `int` of a non-digit character raises
(`none`). -/
def getIndexStep (prev : TocIndexed) (e : TocEntry) : Option String :=
  if e.level == 1 then
    match firstDigit prev.index with
    | none => none
    | some d => some (toString (d + 1))
  else if prev.level < e.level then
    some (prev.index ++ ".1")
  else
    match lastDigit prev.index with
    | none => none
    | some d => some (dropLastTwo prev.index ++ "." ++ toString (d + 1))

/-- The tail of the `get_index` loop: `prev` is the previous entry with its
index; each remaining entry gets `getIndexStep prev` and becomes the new
`prev`. -/
def getIndexLoop (prev : TocIndexed) : List TocEntry → Option (List TocIndexed)
  | [] => some []
  | e :: rest =>
    match getIndexStep prev e with
    | none => none
    | some idx =>
      let cur : TocIndexed := ⟨e.level, e.label, e.page, idx⟩
      match getIndexLoop cur rest with
      | none => none
      | some tl => some (cur :: tl)

/-- `get_index` (src/utils.py lines 15-26): assign dotted hierarchical index
strings to an outline; the first entry gets "1". -/
def get_index : List TocEntry → Option (List TocIndexed)
  | [] => some []
  | e :: rest =>
    let first : TocIndexed := ⟨e.level, e.label, e.page, "1"⟩
    match getIndexLoop first rest with
    | none => none
    | some tl => some (first :: tl)

/-- Levenshtein edit distance, inner loop: `levAux f x n ys` is the distance
from `x :: xs` to `ys`, where `f` computes distances from `xs` and
`n = xs.length`.  Structured this way so that both recursions are
structural. -/
def levAux (f : List Char → Nat) (x : Char) (n : Nat) : List Char → Nat
  | [] => n + 1
  | y :: ys =>
    if x = y then f ys
    else 1 + min (f ys) (min (levAux f x n ys) (f (y :: ys)))

/-- Levenshtein edit distance between two character lists (the semantics of
`Levenshtein.distance` called in src/pdf_processor.py line 99). -/
def lev : List Char → List Char → Nat
  | [] => fun ys => ys.length
  | x :: xs => levAux (lev xs) x xs.length

/-- Python `s.lower()` (ASCII case folding suffices for the texts here). -/
def lowerStr (s : String) : String :=
  String.mk (s.toList.map Char.toLower)

/-- Edit distance between two strings. -/
def levStr (a b : String) : Nat := lev a.toList b.toList

/-- Python `' '.join` over a list of strings. -/
def joinSp : List String → String
  | [] => ""
  | [s] => s
  | s :: rest => s ++ " " ++ joinSp rest

/-- First-occurrence deduplication of the `(block_num, page_num)` keys of an
OCR record list, keeping the original order (pandas `drop_duplicates` on the
key columns). -/
def dedupKeysAux (seen : List (Int × Int)) : List OcrRec → List (Int × Int)
  | [] => []
  | r :: rs =>
    if recKey r ∈ seen then dedupKeysAux seen rs
    else recKey r :: dedupKeysAux (recKey r :: seen) rs

/-- The distinct `(block_num, page_num)` keys of an OCR record list in
first-occurrence order. -/
def dedupKeys (ocr : List OcrRec) : List (Int × Int) :=
  dedupKeysAux [] ocr

/-- Strict lexicographic order on `(block_num, page_num)` keys, the order
pandas `groupby(['block_num', 'page_num'])` sorts group keys into. -/
def pairLt (a b : Int × Int) : Bool :=
  a.1 < b.1 || (a.1 == b.1 && a.2 < b.2)

/-- Insert into a list sorted by the strict order `lt`, before the first
element not below `x` (a stable insertion). -/
def insertByLt {α : Type} (lt : α → α → Bool) (x : α) : List α → List α
  | [] => [x]
  | y :: ys => if lt y x then y :: insertByLt lt x ys else x :: y :: ys

/-- Stable insertion sort by the strict order `lt`. -/
def sortByLt {α : Type} (lt : α → α → Bool) (l : List α) : List α :=
  l.foldr (insertByLt lt) []

/-- The space-joined text of the group of OCR records with key `k`, in
emission order (pandas `groupby(...)['text'].apply(' '.join)`). -/
def groupText (ocr : List OcrRec) (k : Int × Int) : String :=
  joinSp ((ocr.filter (fun r => r.block_num == k.1 && r.page_num == k.2)).map (·.text))

/-- The sorted distinct keys of the grouped OCR data
(pandas `groupby` sorts its keys ascending). -/
def groupKeys (ocr : List OcrRec) : List (Int × Int) :=
  sortByLt pairLt (dedupKeys ocr)

/-- The grouped OCR data of `find_block_num` (src/pdf_processor.py line 91):
keys in ascending `(block_num, page_num)` order, each with its space-joined
group text. -/
def grouped (ocr : List OcrRec) : List ((Int × Int) × String) :=
  (groupKeys ocr).map (fun k => (k, groupText ocr k))

/-- The distance of the query to one group: both sides lower-cased
(src/pdf_processor.py lines 89, 98-99; the query is lower-cased once
before the loop, modelled by lower-casing it here as well). -/
def groupDist (q : String) (g : (Int × Int) × String) : Nat :=
  levStr (lowerStr q) (lowerStr g.2)

/-- The distance of the query to the group with key `k`. -/
def keyDist (q : String) (ocr : List OcrRec) (k : Int × Int) : Nat :=
  groupDist q (k, groupText ocr k)

/-- One iteration of the minimum-distance loop of `find_block_num`
(src/pdf_processor.py lines 97-104): the state is the best key so far and
the lowest distance so far (`none` is the initial `float('inf')`). -/
def bestStep (q : String) (st : Option (Int × Int) × Option Nat)
    (g : (Int × Int) × String) : Option (Int × Int) × Option Nat :=
  let d := groupDist q g
  match st.2 with
  | none => (some g.1, some d)
  | some m => if d < m then (some g.1, some d) else st

/-- `find_block_num` (src/pdf_processor.py lines 58-106): group the records
by key, join and lower-case the texts, and return the key with the lowest
edit distance to the lower-cased query (strict improvement only, so the
first minimum in key order wins).  An empty record list is the source's
`ValueError`, modelled as `none`. -/
def find_block_num (chars : String) (ocr : List OcrRec) : Option (Int × Int) :=
  if ocr.isEmpty then none
  else ((grouped ocr).foldl (bestStep chars) (none, none)).1

/-- A row of the segmentation DataFrame: `Type`, `block_num`, `page_num`. -/
structure SegRow where
  type : String
  block_num : Int
  page_num : Int
deriving DecidableEq

/-- The `(block_num, page_num)` identity key of a segmentation row. -/
def segKey (r : SegRow) : Int × Int := (r.block_num, r.page_num)

/-- The key list of a segmentation table. -/
def segKeys (seg : List SegRow) : List (Int × Int) := seg.map segKey

/-- `top < title_top` with the pandas NaN rule: a comparison against NaN
(`none`) is `False` (src/pdf_segmentation.py line 40). -/
def intLtOpt (x : Int) (o : Option Int) : Bool :=
  match o with
  | none => false
  | some t => x < t

/-- The `top` component of a `calculate_bbox` result (the second component
of the returned 4-tuple). -/
def bboxTop (ocr : List OcrRec) (block page : Int) : Option Int :=
  (calculate_bbox ocr block page).2.1

/-- The distinct page numbers of the OCR data in first-occurrence order
(pandas `Series.unique`, src/pdf_segmentation.py line 38). -/
def uniquePagesAux (seen : List Int) : List OcrRec → List Int
  | [] => []
  | r :: rs =>
    if r.page_num ∈ seen then uniquePagesAux seen rs
    else r.page_num :: uniquePagesAux (r.page_num :: seen) rs

/-- The distinct page numbers of the OCR data in first-occurrence order. -/
def uniquePages (ocr : List OcrRec) : List Int :=
  uniquePagesAux [] ocr

/-- The Headline candidates for one Title row with bbox top `tt`: for each
page in order, the `(block_num, page)` of every OCR word record on that page
whose `top` is below `tt` (src/pdf_segmentation.py lines 38-43); `tt = none`
is the NaN title top of a Title block matching no record, below which no
record falls. -/
def titleCands (ocr : List OcrRec) (tt : Option Int) : List (Int × Int) :=
  (uniquePages ocr).flatMap (fun p =>
    ((ocr.filter (fun w => w.page_num == p && intLtOpt w.top tt)).map
      (fun w => (w.block_num, p))))

/-- The Headline row built for a candidate key
(src/pdf_segmentation.py lines 47-51). -/
def hlRow (k : Int × Int) : SegRow := ⟨"Headline", k.1, k.2⟩

/-- The Author row built for a candidate key
(src/pdf_segmentation.py lines 76-80). -/
def auRow (k : Int × Int) : SegRow := ⟨"Author", k.1, k.2⟩

/-- The Section row built for a candidate key
(src/pdf_segmentation.py lines 103-107). -/
def seRow (k : Int × Int) : SegRow := ⟨"Section", k.1, k.2⟩

/-- The common shape of the three augmentation passes
(src/pdf_segmentation.py lines 45-52, 73-81, 101-108): walk the candidate
keys; skip a key already in the running key set, otherwise test the pass's
condition and, on success, append the pass's row and record the key. -/
def addPass (mk : Int × Int → SegRow) (c : Int × Int → Bool)
    (cands : List (Int × Int)) (st : List SegRow × List (Int × Int)) :
    List SegRow × List (Int × Int) :=
  cands.foldl
    (fun st k =>
      if k ∈ st.2 then st
      else if c k then (st.1 ++ [mk k], k :: st.2)
      else st)
    st

/-- The Headline pass (src/pdf_segmentation.py lines 26-52): for every Title
row of the input table, add a Headline row for every unclassified block with
a word above the Title block's bbox top.  Returns the new Headline rows and
the final key set.  (The source's `if title_bbox:` test is always true on a
4-tuple; an unmatched Title key yields a NaN top, under which the candidate
list is empty.) -/
def headlinePass (seg : List SegRow) (ocr : List OcrRec) :
    List SegRow × List (Int × Int) :=
  seg.foldl
    (fun st r =>
      if r.type == "Title" then
        addPass hlRow (fun _ => true)
          (titleCands ocr (bboxTop ocr r.block_num r.page_num)) st
      else st)
    ([], segKeys seg)

/-- The Author pass (src/pdf_segmentation.py lines 59-81) on the table
`base` (input plus Headline rows) with running key set `ex`.  With a Title
row present, `nb` is the minimum `block_num` of the page-1 rows whose
`block_num` differs from the Title's (NaN when there are none), and every
unclassified page-1 OCR key strictly between the Title block and `nb`
becomes an Author row.  Without a Title row the source compares
`None < block_num` and raises a `TypeError` as soon as an unclassified
page-1 OCR key is reached, modelled by `none`. -/
def authorPass (base : List SegRow) (ocr : List OcrRec)
    (ex : List (Int × Int)) : Option (List SegRow × List (Int × Int)) :=
  match base.find? (fun r => r.type == "Title") with
  | some trow =>
    let tb := trow.block_num
    let nb := minInt ((base.filter
      (fun r => r.page_num == 1 && !(r.block_num == tb))).map (·.block_num))
    some (addPass auRow
      (fun k => k.2 == 1 && decide (tb < k.1) && intLtOpt k.1 nb)
      (dedupKeys ocr) ([], ex))
  | none =>
    if (dedupKeys ocr).any (fun k => !(decide (k ∈ ex)) && k.2 == 1) then none
    else some ([], ex)

/-- The Section-range pass (src/pdf_segmentation.py lines 83-108) on the
table `base` with running key set `ex`: for every consecutive pair of
Section rows of `base`, every unclassified OCR key whose `block_num` lies
strictly between the pair's block numbers becomes a Section row. -/
def sectionPass (base : List SegRow) (ocr : List OcrRec)
    (ex : List (Int × Int)) : List SegRow × List (Int × Int) :=
  let secs := base.filter (fun r => r.type == "Section")
  (secs.zip secs.tail).foldl
    (fun st pr =>
      addPass seRow
        (fun k => decide (pr.1.block_num < k.1) && decide (k.1 < pr.2.block_num))
        (dedupKeys ocr) st)
    ([], ex)

/-- Strict lexicographic `(page_num, block_num)` order on segmentation rows,
the key order of the final `sort_values(by=['page_num', 'block_num'])`. -/
def keyLt (a b : SegRow) : Bool :=
  a.page_num < b.page_num || (a.page_num == b.page_num && a.block_num < b.block_num)

/-- The final stable sort of the segmentation table by
`(page_num, block_num)` ascending (src/pdf_segmentation.py line 119). -/
def sortSeg (l : List SegRow) : List SegRow :=
  sortByLt keyLt l

/-- `process_segmentation` (src/pdf_segmentation.py lines 4-121): run the
Headline, Author and Section-range passes over the sparse segmentation
table, concatenate the new rows in the source's order and sort by
`(page_num, block_num)`.  The result is `none` when the source raises (the
Author pass without a Title row). -/
def process_segmentation (seg : List SegRow) (ocr : List OcrRec) :
    Option (List SegRow) :=
  match authorPass (seg ++ (headlinePass seg ocr).1) ocr (headlinePass seg ocr).2 with
  | none => none
  | some st2 =>
    some (sortSeg ((seg ++ (headlinePass seg ocr).1) ++ st2.1 ++
      (sectionPass (seg ++ (headlinePass seg ocr).1) ocr st2.2).1))

/-- The property that one augmentation step appends only rows of its own
kind: fresh keys, no duplicates, and a key set that grows by exactly the
added keys.  All three passes of `process_segmentation` have this shape. -/
def StepAdds (mk : Int × Int → SegRow)
    (f : List SegRow × List (Int × Int) → List SegRow × List (Int × Int)) : Prop :=
  ∀ rows ex, ∃ new : List SegRow,
    (f (rows, ex)).1 = rows ++ new ∧
    (∀ r ∈ new, r = mk (segKey r)) ∧
    (∀ k ∈ segKeys new, k ∉ ex) ∧
    (segKeys new).Nodup ∧
    (∀ k, k ∈ (f (rows, ex)).2 ↔ k ∈ segKeys new ∨ k ∈ ex)

/-- Non-strict `(page_num, block_num)` order on segmentation rows: the final
table is sorted with respect to it. -/
def segLe (a b : SegRow) : Prop :=
  a.page_num < b.page_num ∨ (a.page_num = b.page_num ∧ a.block_num ≤ b.block_num)

/-- Concrete two-record OCR table for the `find_block_num` witness. -/
def c2ocr : List OcrRec := [⟨1, 0, 0, 0, 1, 1, "A"⟩, ⟨1, 1, 0, 9, 1, 1, "b"⟩]

/-- C3 counterexample input: sparse table with Title at block 2. -/
def c3seg : List SegRow := [⟨"Title", 2, 1⟩, ⟨"Abstract", 0, 1⟩, ⟨"Keywords", 5, 1⟩]

/-- C3 counterexample input: one-page OCR universe, blocks 0-5, none above the title. -/
def c3ocr : List OcrRec := [
  ⟨1, 0, 10, 10, 50, 10, "a"⟩,
  ⟨1, 1, 10, 20, 50, 10, "b"⟩,
  ⟨1, 2, 10, 5, 50, 10, "t"⟩,
  ⟨1, 3, 10, 40, 50, 10, "c"⟩,
  ⟨1, 4, 10, 50, 50, 10, "d"⟩,
  ⟨1, 5, 10, 60, 50, 10, "e"⟩]

/-- C3 counterexample: the table `process_segmentation` returns. -/
def c3out : List SegRow := [⟨"Abstract", 0, 1⟩, ⟨"Title", 2, 1⟩, ⟨"Keywords", 5, 1⟩]

/-- C3 witness input: the spec's scenario table (Title at 0, Abstract at 2). -/
def c3wseg : List SegRow := [⟨"Title", 0, 1⟩, ⟨"Abstract", 2, 1⟩]

/-- C3 witness input: the spec's scenario OCR records, blocks 0-2. -/
def c3wocr : List OcrRec := [
  ⟨1, 0, 10, 5, 60, 12, "Title Text"⟩,
  ⟨1, 1, 10, 30, 60, 12, "Author Name"⟩,
  ⟨1, 2, 10, 60, 60, 12, "Abstract"⟩]

/-- C3 witness: the returned table, with block 1 classified as Author. -/
def c3wout : List SegRow := [⟨"Title", 0, 1⟩, ⟨"Author", 1, 1⟩, ⟨"Abstract", 2, 1⟩]

/-- C4 witness input: a single Title row at block 1. -/
def c4seg : List SegRow := [⟨"Title", 1, 1⟩]

/-- C4 witness input: block 0 lies above the title top. -/
def c4ocr : List OcrRec := [
  ⟨1, 0, 10, 5, 40, 10, "head"⟩,
  ⟨1, 1, 10, 50, 40, 10, "title"⟩,
  ⟨1, 2, 10, 80, 40, 10, "rest"⟩]

/-- C4 witness: the returned table, with block 0 as Headline. -/
def c4out : List SegRow := [⟨"Headline", 0, 1⟩, ⟨"Title", 1, 1⟩]

/-- C10 witness input: a table without a Title row. -/
def c10seg : List SegRow := [⟨"Abstract", 0, 1⟩]

/-- C10 witness input: OCR records with an unclassified page-1 key. -/
def c10ocr : List OcrRec := [⟨1, 0, 0, 0, 1, 1, "x"⟩, ⟨1, 1, 0, 9, 1, 1, "y"⟩]

/-- C1 witness input: Title and two Section rows. -/
def c1seg : List SegRow := [⟨"Title", 2, 1⟩, ⟨"Section", 4, 1⟩, ⟨"Section", 7, 1⟩]

/-- C1 witness input: two pages of OCR records. -/
def c1ocr : List OcrRec := [
  ⟨1, 0, 10, 5, 50, 10, "h"⟩,
  ⟨1, 2, 10, 20, 50, 10, "t"⟩,
  ⟨1, 3, 10, 50, 50, 10, "a"⟩,
  ⟨1, 4, 10, 60, 50, 10, "s1"⟩,
  ⟨1, 5, 10, 70, 50, 10, "x"⟩,
  ⟨1, 6, 10, 75, 50, 10, "y"⟩,
  ⟨1, 7, 10, 80, 50, 10, "s2"⟩,
  ⟨2, 0, 10, 3, 50, 10, "pg2"⟩]

/-- C1 witness: the returned table. -/
def c1out : List SegRow := [⟨"Headline", 0, 1⟩, ⟨"Title", 2, 1⟩, ⟨"Section", 4, 1⟩,
  ⟨"Section", 5, 1⟩, ⟨"Section", 6, 1⟩, ⟨"Section", 7, 1⟩, ⟨"Headline", 0, 2⟩]

/-- `figLoop` returns the result of inspecting exactly the first record past
the threshold: it equals a `find?` for the first record whose top exceeds
the bound, followed by the "Figure"-token test on that single record. -/
theorem figLoop_eq_find (b : ℚ) (l : List OcrRec) :
    figLoop b l =
      (match l.find? (fun r => decide (b < (r.top : ℚ))) with
       | none => []
       | some r => if strHasTok "Figure" r.text then [r.block_num] else []) := by
  induction l with
  | nil => rfl
  | cons r rs ih =>
    by_cases h : b < (r.top : ℚ)
    · simp [figLoop, h, List.find?_cons]
    · simp [figLoop, h, List.find?_cons, ih]

/-- Claim C7: `get_figure_block_nums` scans the page's records in order and
inspects only the first record whose top strictly exceeds the target bottom:
the result is that record's block if its text contains the token "Figure"
and empty otherwise, so the result never has more than one element. -/
theorem get_figure_first_below_spec (ocr : List OcrRec) (target : RectQ) (pg : Int) :
    get_figure_block_nums ocr target pg =
      (match (ocr.filter (fun r => r.page_num == pg + 1)).find?
          (fun r => decide (target.bottom < (r.top : ℚ))) with
       | none => []
       | some r => if strHasTok "Figure" r.text then [r.block_num] else []) ∧
    (get_figure_block_nums ocr target pg).length ≤ 1 := by
  refine ⟨figLoop_eq_find target.bottom _, ?_⟩
  rw [get_figure_block_nums, figLoop_eq_find]
  cases (ocr.filter (fun r => r.page_num == pg + 1)).find?
      (fun r => decide (target.bottom < (r.top : ℚ))) with
  | none => simp
  | some r =>
    by_cases h : strHasTok "Figure" r.text = true <;> simp [h]

/-- Claim C6: the overlap predicate of `get_table_block_nums` is the
open-interval intersection test, it is symmetric, disjoint rectangles do not
overlap, and rectangles that merely touch on an edge do not overlap. -/
theorem overlaps_open_interval_spec :
    (∀ a b : RectQ, overlaps a b = overlaps b a) ∧
    (∀ a b : RectQ, overlaps a b = true ↔
      (a.x0 < b.x1 ∧ a.x1 > b.x0 ∧ a.top < b.bottom ∧ a.bottom > b.top)) ∧
    overlaps ⟨0, 0, 10, 10⟩ ⟨20, 20, 30, 30⟩ = false ∧
    overlaps ⟨20, 20, 30, 30⟩ ⟨0, 0, 10, 10⟩ = false ∧
    overlaps ⟨0, 0, 10, 10⟩ ⟨10, 0, 20, 10⟩ = false := by
  refine ⟨?_, ?_, by decide, by decide, by decide⟩
  · intro a b
    simp only [overlaps, gt_iff_lt, decide_eq_decide]
    constructor
    · rintro ⟨h1, h2, h3, h4⟩; exact ⟨h2, h1, h4, h3⟩
    · rintro ⟨h1, h2, h3, h4⟩; exact ⟨h2, h1, h4, h3⟩
  · intro a b
    simp [overlaps]

/-- Claim C8 (counterexample): on an unmatched key `calculate_bbox` does not
fail with a distinguishable lookup-miss; it returns the 4-tuple of
empty-aggregate sentinels (pandas NaN, modelled by `none`) produced by
`min`/`max` over the empty selection. -/
theorem calculate_bbox_empty_returns_sentinel :
    calculate_bbox [] 0 1 = (none, none, none, none) := rfl

/-- Claim C8 (amended): for every OCR table and every `(block, page)` key
matched by no record, `calculate_bbox` returns the NaN-sentinel tuple
`(none, none, none, none)` — each component the aggregate of an empty
selection — rather than a distinguishable not-found failure; callers must
detect the sentinel themselves. -/
theorem calculate_bbox_unmatched_nan_tuple (ocr : List OcrRec) (b p : Int)
    (h : ocr.filter (fun r => r.block_num == b && r.page_num == p) = []) :
    calculate_bbox ocr b p = (none, none, none, none) := by
  unfold calculate_bbox
  rw [h]
  rfl

/-- Witness for `calculate_bbox_unmatched_nan_tuple` at a concrete
one-record table and a key matching no record. -/
theorem calculate_bbox_unmatched_nan_tuple_witness :
    calculate_bbox [⟨1, 5, 0, 0, 1, 1, "x"⟩] 0 1 = (none, none, none, none) :=
  calculate_bbox_unmatched_nan_tuple [⟨1, 5, 0, 0, 1, 1, "x"⟩] 0 1 (by decide)

/-- Claim C9 (counterexample): on the reference input `r = (0, 0, 10, 10)`
with page width 827 and height 2339 points, the round trip
`pointsToPixels (pixelsToPoints r)` widens the horizontal axis by 12 pixels,
not by `2 × padding = 6`: the padding is fixed in point space and scales by
`1654/W` when mapped back to pixels. -/
theorem roundtrip_padding_counterexample :
    convert_bbox_to_pixels (extract_text_scaled_bbox ⟨0, 0, 10, 10⟩ 827 2339) 827 2339 =
      ⟨-6, -3, 16, 13⟩ ∧ ((16 : ℚ) - (-6)) - (10 - 0) ≠ 2 * 3 := by
  constructor
  · simp only [convert_bbox_to_pixels, extract_text_scaled_bbox, RectQ.mk.injEq]
    norm_num
  · norm_num

/-- Claim C9 (amended): for every rectangle and non-zero page dimensions,
composing the padded pixel→point mapping of `extract_text_from_bbox` with
the unpadded point→pixel mapping of `convert_bbox_to_pixels` recovers the
rectangle up to an offset of exactly `3 · 1654/W` horizontally and
`3 · 2339/H` vertically per side — i.e. exactly the 3-point padding measured
in point space, which equals 3 pixels only when the page dimensions match
the 1654×2339 reference canvas. -/
theorem roundtrip_scaled_padding (r : RectQ) (W H : ℚ) (hW : W ≠ 0) (hH : H ≠ 0) :
    convert_bbox_to_pixels (extract_text_scaled_bbox r W H) W H =
      ⟨r.x0 - 3 * (1654 / W), r.top - 3 * (2339 / H),
       r.x1 + 3 * (1654 / W), r.bottom + 3 * (2339 / H)⟩ := by
  simp only [convert_bbox_to_pixels, extract_text_scaled_bbox, RectQ.mk.injEq]
  refine ⟨?_, ?_, ?_, ?_⟩ <;> field_simp <;> ring

/-- Witness for `roundtrip_scaled_padding` at a concrete rectangle and page
size. -/
theorem roundtrip_scaled_padding_witness :
    convert_bbox_to_pixels (extract_text_scaled_bbox ⟨0, 0, 10, 10⟩ 827 2339) 827 2339 =
      ⟨0 - 3 * (1654 / 827), 0 - 3 * (2339 / 2339),
       10 + 3 * (1654 / 827), 10 + 3 * (2339 / 2339)⟩ :=
  roundtrip_scaled_padding ⟨0, 0, 10, 10⟩ 827 2339 (by norm_num) (by norm_num)

/-- Claim C5 (code evaluation at the failing input): on eleven consecutive
level-1 outline entries the tenth index is "10", and the eleventh is
computed by `int(index_pre[0]) + 1` — incrementing only the first character
of "10" — yielding "2" instead of the numeric increment "11" of the first
dotted component. -/
theorem get_index_level1_first_char :
    get_index (List.replicate 11 ⟨1, "s", 1⟩) =
      some (["1", "2", "3", "4", "5", "6", "7", "8", "9", "10", "2"].map
        (fun i => ⟨1, "s", 1, i⟩)) := by decide

/-- `insertByLt` produces a permutation of consing the element. -/
theorem insertByLt_perm {α : Type} (lt : α → α → Bool) (x : α) (l : List α) :
    List.Perm (insertByLt lt x l) (x :: l) := by
  induction l with
  | nil => rfl
  | cons y ys ih =>
    by_cases h : lt y x = true
    · simp only [insertByLt]
      rw [if_pos h]
      exact ((ih.cons y).trans (List.Perm.swap x y ys))
    · simp only [insertByLt]
      rw [if_neg h]

/-- The stable insertion sort is a permutation of its input. -/
theorem sortByLt_perm {α : Type} (lt : α → α → Bool) (l : List α) :
    List.Perm (sortByLt lt l) l := by
  induction l with
  | nil => rfl
  | cons a l ih =>
    exact (insertByLt_perm lt a (sortByLt lt l)).trans (ih.cons a)

/-- Inserting into a `lt`-sorted list keeps it sorted, given asymmetry and
transitivity of the complement order. -/
theorem pairwise_insertByLt {α : Type} (lt : α → α → Bool)
    (hasym : ∀ a b, lt a b = true → lt b a = false)
    (htr : ∀ a b c, lt b a = false → lt c b = false → lt c a = false)
    (x : α) (l : List α) (h : l.Pairwise (fun a b => lt b a = false)) :
    (insertByLt lt x l).Pairwise (fun a b => lt b a = false) := by
  induction l with
  | nil => simp [insertByLt]
  | cons y ys ih =>
    rcases h with _ | ⟨hy, hys⟩
    by_cases hlt : lt y x = true
    · simp only [insertByLt]
      rw [if_pos hlt]
      refine List.Pairwise.cons ?_ (ih hys)
      intro z hz
      have hz' : z = x ∨ z ∈ ys := by
        have := (insertByLt_perm lt x ys).mem_iff.mp hz
        simpa using this
      rcases hz' with rfl | hz'
      · exact hasym _ _ hlt
      · exact hy z hz'
    · simp only [insertByLt]
      rw [if_neg hlt]
      have hyx : lt y x = false := by
        cases hxy : lt y x
        · rfl
        · exact absurd hxy hlt
      refine List.Pairwise.cons ?_ (List.Pairwise.cons hy hys)
      intro z hz
      rcases List.mem_cons.mp hz with rfl | hz'
      · exact hyx
      · exact htr _ _ _ hyx (hy z hz')

/-- The insertion sort is sorted: consecutive elements are never strictly
descending. -/
theorem pairwise_sortByLt {α : Type} (lt : α → α → Bool)
    (hasym : ∀ a b, lt a b = true → lt b a = false)
    (htr : ∀ a b c, lt b a = false → lt c b = false → lt c a = false)
    (l : List α) :
    (sortByLt lt l).Pairwise (fun a b => lt b a = false) := by
  induction l with
  | nil => simp [sortByLt]
  | cons a l ih => exact pairwise_insertByLt lt hasym htr a (sortByLt lt l) ih

/-- `pairLt` is asymmetric. -/
theorem pairLt_asym (a b : Int × Int) : pairLt a b = true → pairLt b a = false := by
  simp only [pairLt, Bool.or_eq_true, Bool.and_eq_true, decide_eq_true_eq, beq_iff_eq,
    Bool.or_eq_false_iff, Bool.and_eq_false_iff, decide_eq_false_iff_not, beq_eq_false_iff_ne]
  omega

/-- The complement of `pairLt` (lexicographic less-or-equal) is transitive. -/
theorem pairLt_total_trans (a b c : Int × Int) :
    pairLt b a = false → pairLt c b = false → pairLt c a = false := by
  simp only [pairLt, Bool.or_eq_false_iff, Bool.and_eq_false_iff, decide_eq_false_iff_not,
    beq_eq_false_iff_ne]
  omega

/-- The edit distance of a string to itself is 0. -/
theorem lev_self (s : List Char) : lev s s = 0 := by
  induction s with
  | nil => rfl
  | cons c cs ih => simp [lev, levAux, ih]

/-- The minimum-distance loop of `find_block_num` keeps the first group
attaining the minimal distance: the group list splits into a prefix of
strictly worse groups, the chosen group, and a suffix of no-better groups. -/
theorem bestFold_firstMin (q : String) (gs : List ((Int × Int) × String)) (hne : gs ≠ []) :
    ∃ l₁ g l₂, gs = l₁ ++ g :: l₂ ∧
      gs.foldl (bestStep q) (none, none) = (some g.1, some (groupDist q g)) ∧
      (∀ x ∈ l₁, groupDist q g < groupDist q x) ∧
      (∀ x ∈ gs, groupDist q g ≤ groupDist q x) := by
  induction gs using List.reverseRecOn with
  | nil => exact absurd rfl hne
  | append_singleton l a ih =>
    rcases eq_or_ne l [] with rfl | hl
    · refine ⟨[], a, [], by simp, ?_, by simp, by simp⟩
      simp [bestStep]
    · obtain ⟨l₁, g, l₂, hsplit, hfold, hpre, hglob⟩ := ih hl
      rw [List.foldl_append, hfold]
      by_cases hda : groupDist q a < groupDist q g
      · refine ⟨l, a, [], by simp, ?_, ?_, ?_⟩
        · simp [bestStep, hda]
        · intro x hx
          exact lt_of_lt_of_le hda (hglob x hx)
        · intro x hx
          rcases List.mem_append.mp hx with hx | hx
          · exact le_of_lt (lt_of_lt_of_le hda (hglob x hx))
          · simp at hx; subst hx; exact le_refl _
      · refine ⟨l₁, g, l₂ ++ [a], by rw [hsplit]; simp, ?_, hpre, ?_⟩
        · simp [bestStep, hda]
        · intro x hx
          rcases List.mem_append.mp hx with hx | hx
          · exact hglob x hx
          · simp at hx; subst hx; omega

/-- `pairLt a b = false` is the lexicographic `b ≤ a`. -/
theorem pairLt_false_iff (a b : Int × Int) :
    pairLt a b = false ↔ (b.1 < a.1 ∨ (b.1 = a.1 ∧ b.2 ≤ a.2)) := by
  simp only [pairLt, Bool.or_eq_false_iff, Bool.and_eq_false_iff, decide_eq_false_iff_not,
    beq_eq_false_iff_ne]
  omega

/-- Claim C2: on a non-empty OCR table, `find_block_num` returns the key of
the group whose space-joined, lower-cased text has the globally minimal edit
distance to the lower-cased query; among ties it returns the key first in
`(block_num, page_num)`-ascending order, and when some group's lower-cased
text equals the lower-cased query a distance-0 group is returned. -/
theorem find_block_num_min (q : String) (ocr : List OcrRec) (hne : ocr ≠ []) :
    ∃ k, find_block_num q ocr = some k ∧ k ∈ groupKeys ocr ∧
      (∀ k' ∈ groupKeys ocr, keyDist q ocr k ≤ keyDist q ocr k') ∧
      (∀ k' ∈ groupKeys ocr, keyDist q ocr k' = keyDist q ocr k →
        k.1 < k'.1 ∨ (k.1 = k'.1 ∧ k.2 ≤ k'.2)) ∧
      ((∃ k' ∈ groupKeys ocr, lowerStr (groupText ocr k') = lowerStr q) →
        keyDist q ocr k = 0) := by
  have hdk : dedupKeys ocr ≠ [] := by
    cases ocr with
    | nil => exact absurd rfl hne
    | cons r rs => simp [dedupKeys, dedupKeysAux]
  have hgk : groupKeys ocr ≠ [] := by
    intro h
    have p : List.Perm ([] : List (Int × Int)) (dedupKeys ocr) := by
      rw [← h]; exact (sortByLt_perm pairLt (dedupKeys ocr)).symm.symm
    exact hdk (p.symm.eq_nil)
  have hgs : grouped ocr ≠ [] := by
    intro h
    exact hgk (List.map_eq_nil_iff.mp h)
  obtain ⟨l₁, g, l₂, hsplit, hfold, hpre, hglob⟩ := bestFold_firstMin q (grouped ocr) hgs
  have hie : ocr.isEmpty = false := by
    cases ocr with
    | nil => exact absurd rfl hne
    | cons a l => rfl
  have hf : find_block_num q ocr = some g.1 := by
    unfold find_block_num
    rw [hie]
    simp only [Bool.false_eq_true, if_false, hfold]
  have hgmem : g ∈ grouped ocr := by
    rw [hsplit]
    exact List.mem_append_right _ (List.mem_cons_self _ _)
  obtain ⟨k0, hk0mem, hk0eq⟩ := List.mem_map.mp hgmem
  subst hk0eq
  have hpw : (grouped ocr).Pairwise (fun a b => pairLt b.1 a.1 = false) :=
    List.pairwise_map.mpr (pairwise_sortByLt pairLt pairLt_asym pairLt_total_trans _)
  refine ⟨k0, hf, hk0mem, ?_, ?_, ?_⟩
  · intro k' hk'
    exact hglob _ (List.mem_map_of_mem _ hk')
  · intro k' hk' hdist
    have hmem : (k', groupText ocr k') ∈ grouped ocr := List.mem_map_of_mem _ hk'
    rw [hsplit] at hmem
    rcases List.mem_append.mp hmem with hmem | hmem
    · exfalso
      have hlt := hpre _ hmem
      have e1 : keyDist q ocr k' = groupDist q (k', groupText ocr k') := rfl
      have e2 : keyDist q ocr k0 = groupDist q (k0, groupText ocr k0) := rfl
      omega
    · rcases List.mem_cons.mp hmem with heq | hmem
      · have hk : k' = k0 := congrArg Prod.fst heq
        subst hk
        exact Or.inr ⟨rfl, le_refl _⟩
      · rw [hsplit] at hpw
        have hrel := ((List.pairwise_append.mp hpw).2.1)
        rcases hrel with _ | ⟨hhead, _⟩
        have := hhead _ hmem
        exact (pairLt_false_iff k' k0).mp this
  · rintro ⟨k', hk', htext⟩
    have hmem : (k', groupText ocr k') ∈ grouped ocr := List.mem_map_of_mem _ hk'
    have h0 : groupDist q (k', groupText ocr k') = 0 := by
      show levStr (lowerStr q) (lowerStr (groupText ocr k')) = 0
      rw [htext]
      exact lev_self _
    have hle := hglob _ hmem
    have e2 : keyDist q ocr k0 = groupDist q (k0, groupText ocr k0) := rfl
    omega

/-- Witness for `find_block_num_min`: on `c2ocr` and query "b" the theorem
applies; the returned key `(1, 1)` has minimal distance, in particular no
larger than the distance of group `(0, 1)`. -/
theorem find_block_num_min_witness : keyDist "b" c2ocr (1, 1) ≤ keyDist "b" c2ocr (0, 1) := by
  obtain ⟨k, hk, hmem, hmin, htie, hzero⟩ := find_block_num_min "b" c2ocr (by decide)
  have hkv : k = (1, 1) := by
    have h2 : (some k : Option (Int × Int)) = some (1, 1) := by rw [← hk]; decide
    exact Option.some.inj h2
  subst hkv
  exact hmin (0, 1) (by decide)

/-- Keys of a concatenated table. -/
theorem segKeys_append (a b : List SegRow) : segKeys (a ++ b) = segKeys a ++ segKeys b :=
  List.map_append _ a b

/-- Full characterisation of one augmentation pass `addPass`: the pass
appends a block `new` of rows, one per candidate key that passes the
condition and is not in the running key set, with no duplicate keys among
the additions, and the final key set is the union of the added keys and the
initial set. -/
theorem addPass_spec (mk : Int × Int → SegRow) (c : Int × Int → Bool)
    (hmk : ∀ k, segKey (mk k) = k) :
    ∀ (cands : List (Int × Int)) (rows : List SegRow) (ex : List (Int × Int)),
    ∃ new : List SegRow,
      (addPass mk c cands (rows, ex)).1 = rows ++ new ∧
      (∀ r ∈ new, r = mk (segKey r)) ∧
      (∀ k, k ∈ segKeys new ↔ (k ∈ cands ∧ c k = true ∧ k ∉ ex)) ∧
      (segKeys new).Nodup ∧
      (∀ k, k ∈ (addPass mk c cands (rows, ex)).2 ↔ k ∈ segKeys new ∨ k ∈ ex) := by
  intro cands
  induction cands with
  | nil =>
    intro rows ex
    exact ⟨[], by simp [addPass], by simp, by simp [segKeys], by simp [segKeys],
      by simp [addPass, segKeys]⟩
  | cons k0 rest ih =>
    intro rows ex
    by_cases h0 : k0 ∈ ex
    · have hstep : addPass mk c (k0 :: rest) (rows, ex) = addPass mk c rest (rows, ex) := by
        simp [addPass, h0]
      obtain ⟨new, g1, g2, g3, g4, g5⟩ := ih rows ex
      rw [hstep]
      refine ⟨new, g1, g2, ?_, g4, g5⟩
      intro k
      rw [g3 k]
      constructor
      · rintro ⟨hk, hc, hex⟩
        exact ⟨List.mem_cons_of_mem _ hk, hc, hex⟩
      · rintro ⟨hk, hc, hex⟩
        rcases List.mem_cons.mp hk with rfl | hk
        · exact absurd h0 hex
        · exact ⟨hk, hc, hex⟩
    · by_cases h1 : c k0 = true
      · have hstep : addPass mk c (k0 :: rest) (rows, ex) =
            addPass mk c rest (rows ++ [mk k0], k0 :: ex) := by
          simp [addPass, h0, h1]
        obtain ⟨new, g1, g2, g3, g4, g5⟩ := ih (rows ++ [mk k0]) (k0 :: ex)
        rw [hstep]
        have hkeys : segKeys (mk k0 :: new) = k0 :: segKeys new := by
          simp [segKeys, hmk]
        refine ⟨mk k0 :: new, ?_, ?_, ?_, ?_, ?_⟩
        · rw [g1, List.append_assoc]
          rfl
        · intro r hr
          rcases List.mem_cons.mp hr with rfl | hr
          · rw [hmk]
          · exact g2 r hr
        · intro k
          rw [hkeys]
          constructor
          · intro hk
            rcases List.mem_cons.mp hk with rfl | hk
            · exact ⟨List.mem_cons_self _ _, h1, h0⟩
            · obtain ⟨ha, hb, hc⟩ := (g3 k).mp hk
              exact ⟨List.mem_cons_of_mem _ ha, hb,
                fun hex => hc (List.mem_cons_of_mem _ hex)⟩
          · rintro ⟨ha, hb, hc⟩
            by_cases hk : k = k0
            · exact hk ▸ List.mem_cons_self _ _
            · rcases List.mem_cons.mp ha with rfl | ha
              · exact absurd rfl hk
              · refine List.mem_cons_of_mem _ ((g3 k).mpr ⟨ha, hb, ?_⟩)
                intro hm
                rcases List.mem_cons.mp hm with rfl | hm
                · exact hk rfl
                · exact hc hm
        · rw [hkeys]
          refine List.nodup_cons.mpr ⟨?_, g4⟩
          intro hmem
          obtain ⟨-, -, hcon⟩ := (g3 k0).mp hmem
          exact hcon (List.mem_cons_self _ _)
        · intro k
          rw [g5 k, hkeys]
          simp only [List.mem_cons]
          tauto
      · have hstep : addPass mk c (k0 :: rest) (rows, ex) = addPass mk c rest (rows, ex) := by
          simp [addPass, h0, h1]
        obtain ⟨new, g1, g2, g3, g4, g5⟩ := ih rows ex
        rw [hstep]
        refine ⟨new, g1, g2, ?_, g4, g5⟩
        intro k
        rw [g3 k]
        constructor
        · rintro ⟨hk, hc, hex⟩
          exact ⟨List.mem_cons_of_mem _ hk, hc, hex⟩
        · rintro ⟨hk, hc, hex⟩
          rcases List.mem_cons.mp hk with rfl | hk
          · exact absurd hc h1
          · exact ⟨hk, hc, hex⟩

/-- The identity step adds nothing. -/
theorem stepAdds_id (mk : Int × Int → SegRow) : StepAdds mk (fun st => st) := by
  intro rows ex
  refine ⟨[], by simp, by simp, ?_, ?_, ?_⟩
  · rw [show segKeys [] = [] from rfl]
    simp
  · rw [show segKeys [] = [] from rfl]
    exact List.nodup_nil
  · intro k
    rw [show segKeys [] = [] from rfl]
    simp

/-- An `addPass` step is a `StepAdds` step. -/
theorem stepAdds_addPass (mk : Int × Int → SegRow) (c : Int × Int → Bool)
    (hmk : ∀ k, segKey (mk k) = k) (cands : List (Int × Int)) :
    StepAdds mk (addPass mk c cands) := by
  intro rows ex
  obtain ⟨new, g1, g2, g3, g4, g5⟩ := addPass_spec mk c hmk cands rows ex
  exact ⟨new, g1, g2, fun k hk => ((g3 k).mp hk).2.2, g4, g5⟩

/-- A fold of `StepAdds` steps is itself a `StepAdds` step. -/
theorem stepAdds_foldl {β : Type} (mk : Int × Int → SegRow)
    (step : List SegRow × List (Int × Int) → β → List SegRow × List (Int × Int))
    (l : List β) (h : ∀ b ∈ l, StepAdds mk (fun st => step st b)) :
    StepAdds mk (fun st => l.foldl step st) := by
  induction l with
  | nil => exact stepAdds_id mk
  | cons b bs ih =>
    intro rows ex
    obtain ⟨new₁, p1, p2, p3, p4, p5⟩ := h b (List.mem_cons_self _ _) rows ex
    have hpair : step (rows, ex) b = (rows ++ new₁, (step (rows, ex) b).2) :=
      Prod.ext p1 rfl
    obtain ⟨new₂, q1, q2, q3, q4, q5⟩ :=
      ih (fun b' hb' => h b' (List.mem_cons_of_mem _ hb')) (rows ++ new₁)
        ((step (rows, ex) b).2)
    refine ⟨new₁ ++ new₂, ?_, ?_, ?_, ?_, ?_⟩
    · show ((b :: bs).foldl step (rows, ex)).1 = _
      rw [List.foldl_cons, hpair, q1, List.append_assoc]
    · intro r hr
      rcases List.mem_append.mp hr with hr | hr
      · exact p2 r hr
      · exact q2 r hr
    · intro k hk
      rw [segKeys_append] at hk
      rcases List.mem_append.mp hk with hk | hk
      · exact p3 k hk
      · intro hex
        exact q3 k hk ((p5 k).mpr (Or.inr hex))
    · rw [segKeys_append]
      refine List.nodup_append.mpr ⟨p4, q4, ?_⟩
      intro a ha ha'
      exact q3 a ha' ((p5 a).mpr (Or.inl ha))
    · intro k
      show k ∈ ((b :: bs).foldl step (rows, ex)).2 ↔ _
      rw [List.foldl_cons, hpair]
      rw [q5 k, p5 k, segKeys_append]
      simp only [List.mem_append]
      tauto

/-- The Headline pass fold is a `StepAdds` step for `hlRow`. -/
theorem headlinePass_stepAdds (seg : List SegRow) (ocr : List OcrRec) :
    StepAdds hlRow (fun st => seg.foldl
      (fun st r =>
        if r.type == "Title" then
          addPass hlRow (fun _ => true)
            (titleCands ocr (bboxTop ocr r.block_num r.page_num)) st
        else st)
      st) := by
  refine stepAdds_foldl hlRow _ seg ?_
  intro r _
  by_cases hr : r.type == "Title"
  · simp only [hr, if_true]
    exact stepAdds_addPass hlRow _ (fun k => rfl) _
  · simp only [hr]
    simp only [Bool.false_eq_true, if_false]
    exact stepAdds_id hlRow

/-- The Headline pass appends only Headline rows keyed outside the input
table, without duplicates, and its final key set is the union of the added
keys and the input keys. -/
theorem headlinePass_spec (seg : List SegRow) (ocr : List OcrRec) :
    ∃ new : List SegRow,
      (headlinePass seg ocr).1 = new ∧
      (∀ r ∈ new, r = hlRow (segKey r)) ∧
      (∀ k ∈ segKeys new, k ∉ segKeys seg) ∧
      (segKeys new).Nodup ∧
      (∀ k, k ∈ (headlinePass seg ocr).2 ↔ k ∈ segKeys new ∨ k ∈ segKeys seg) := by
  obtain ⟨new, g1, g2, g3, g4, g5⟩ := headlinePass_stepAdds seg ocr [] (segKeys seg)
  exact ⟨new, by simpa only [List.nil_append] using g1, g2, g3, g4, g5⟩

/-- When the Author pass succeeds it appends only Author rows keyed outside
the incoming key set, without duplicates, and its final key set is the
union. -/
theorem authorPass_some_spec (base : List SegRow) (ocr : List OcrRec)
    (ex : List (Int × Int)) (st2 : List SegRow × List (Int × Int))
    (h : authorPass base ocr ex = some st2) :
    ∃ new : List SegRow,
      st2.1 = new ∧
      (∀ r ∈ new, r = auRow (segKey r)) ∧
      (∀ k ∈ segKeys new, k ∉ ex) ∧
      (segKeys new).Nodup ∧
      (∀ k, k ∈ st2.2 ↔ k ∈ segKeys new ∨ k ∈ ex) := by
  unfold authorPass at h
  cases hf : base.find? (fun r => r.type == "Title") with
  | some trow =>
    rw [hf] at h
    have hst : st2 = addPass auRow
        (fun k => k.2 == 1 && decide (trow.block_num < k.1) &&
          intLtOpt k.1 (minInt ((base.filter
            (fun r => r.page_num == 1 && !(r.block_num == trow.block_num))).map
            (·.block_num))))
        (dedupKeys ocr) ([], ex) := (Option.some.inj h).symm
    obtain ⟨new, g1, g2, g3, g4, g5⟩ := stepAdds_addPass auRow _ (fun k => rfl)
      (dedupKeys ocr) [] ex
    subst hst
    exact ⟨new, by simpa only [List.nil_append] using g1, g2, g3, g4, g5⟩
  | none =>
    rw [hf] at h
    by_cases hany : (dedupKeys ocr).any (fun k => !(decide (k ∈ ex)) && k.2 == 1) = true
    · rw [if_pos hany] at h
      exact absurd h (by simp)
    · rw [if_neg hany] at h
      have hst : st2 = ([], ex) := (Option.some.inj h).symm
      subst hst
      refine ⟨[], rfl, by simp, ?_, ?_, ?_⟩
      · rw [show segKeys [] = [] from rfl]
        simp
      · rw [show segKeys [] = [] from rfl]
        exact List.nodup_nil
      · intro k
        rw [show segKeys [] = [] from rfl]
        simp

/-- The Section-range pass appends only Section rows keyed outside the
incoming key set, without duplicates, and its final key set is the union. -/
theorem sectionPass_spec (base : List SegRow) (ocr : List OcrRec)
    (ex : List (Int × Int)) :
    ∃ new : List SegRow,
      (sectionPass base ocr ex).1 = new ∧
      (∀ r ∈ new, r = seRow (segKey r)) ∧
      (∀ k ∈ segKeys new, k ∉ ex) ∧
      (segKeys new).Nodup ∧
      (∀ k, k ∈ (sectionPass base ocr ex).2 ↔ k ∈ segKeys new ∨ k ∈ ex) := by
  have hsa : StepAdds seRow (fun st =>
      ((base.filter (fun r => r.type == "Section")).zip
        (base.filter (fun r => r.type == "Section")).tail).foldl
        (fun st pr =>
          addPass seRow
            (fun k => decide (pr.1.block_num < k.1) && decide (k.1 < pr.2.block_num))
            (dedupKeys ocr) st)
        st) := by
    refine stepAdds_foldl seRow _ _ ?_
    intro pr _
    exact stepAdds_addPass seRow _ (fun k => rfl) _
  obtain ⟨new, g1, g2, g3, g4, g5⟩ := hsa [] ex
  exact ⟨new, by simpa only [List.nil_append] using g1, g2, g3, g4, g5⟩

/-- `keyLt` is asymmetric. -/
theorem keyLt_asym (a b : SegRow) : keyLt a b = true → keyLt b a = false := by
  simp only [keyLt, Bool.or_eq_true, Bool.and_eq_true, decide_eq_true_eq, beq_iff_eq,
    Bool.or_eq_false_iff, Bool.and_eq_false_iff, decide_eq_false_iff_not, beq_eq_false_iff_ne]
  omega

/-- The complement of `keyLt` is transitive. -/
theorem keyLt_total_trans (a b c : SegRow) :
    keyLt b a = false → keyLt c b = false → keyLt c a = false := by
  simp only [keyLt, Bool.or_eq_false_iff, Bool.and_eq_false_iff, decide_eq_false_iff_not,
    beq_eq_false_iff_ne]
  omega

/-- The complement of `keyLt` is the non-strict `(page_num, block_num)` order. -/
theorem keyLt_false_iff (a b : SegRow) : keyLt b a = false ↔ segLe a b := by
  simp only [keyLt, segLe, Bool.or_eq_false_iff, Bool.and_eq_false_iff,
    decide_eq_false_iff_not, beq_eq_false_iff_ne]
  omega

/-- Unfolding `process_segmentation` on a successful run: the Author pass
succeeded and the output is the sorted concatenation of the base table, the
Author rows and the Section rows. -/
theorem process_eq (seg : List SegRow) (ocr : List OcrRec) (out : List SegRow)
    (hout : process_segmentation seg ocr = some out) :
    ∃ st2, authorPass (seg ++ (headlinePass seg ocr).1) ocr (headlinePass seg ocr).2 = some st2 ∧
      out = sortSeg ((seg ++ (headlinePass seg ocr).1) ++ st2.1 ++
        (sectionPass (seg ++ (headlinePass seg ocr).1) ocr st2.2).1) := by
  unfold process_segmentation at hout
  cases hA : authorPass (seg ++ (headlinePass seg ocr).1) ocr (headlinePass seg ocr).2 with
  | none =>
    rw [hA] at hout
    exact absurd hout (by simp)
  | some st2 =>
    rw [hA] at hout
    exact ⟨st2, rfl, (Option.some.inj hout).symm⟩

/-- Claim C1: for every sparse input segmentation table with unique
`(block_num, page_num)` keys and every OCR table, a table returned by
`process_segmentation` contains every input key, has no duplicate keys, has
at least as many rows as the input, and is sorted non-decreasing by
`(page_num, block_num)`. -/
theorem process_segmentation_invariants (seg : List SegRow) (ocr : List OcrRec)
    (out : List SegRow)
    (hnd : (segKeys seg).Nodup)
    (hout : process_segmentation seg ocr = some out) :
    (∀ k ∈ segKeys seg, k ∈ segKeys out) ∧
    (segKeys out).Nodup ∧
    seg.length ≤ out.length ∧
    out.Pairwise segLe := by
  obtain ⟨st2, hA, hO⟩ := process_eq seg ocr out hout
  obtain ⟨new₁, h11, h12, h13, h14, h15⟩ := headlinePass_spec seg ocr
  obtain ⟨new₂, h21, h22, h23, h24, h25⟩ := authorPass_some_spec _ ocr _ st2 hA
  obtain ⟨new₃, h31, h32, h33, h34, h35⟩ := sectionPass_spec (seg ++ (headlinePass seg ocr).1) ocr st2.2
  set full := (seg ++ (headlinePass seg ocr).1) ++ st2.1 ++
    (sectionPass (seg ++ (headlinePass seg ocr).1) ocr st2.2).1 with hfull
  have hperm : List.Perm out full := hO ▸ sortByLt_perm keyLt full
  have hpermk : List.Perm (segKeys out) (segKeys full) := hperm.map segKey
  -- membership of ex sets
  have hex1 : ∀ k, k ∈ (headlinePass seg ocr).2 ↔ k ∈ segKeys new₁ ∨ k ∈ segKeys seg := h15
  -- not-in facts for new₂ and new₃
  have h23' : ∀ k ∈ segKeys new₂, k ∉ segKeys new₁ ∧ k ∉ segKeys seg := by
    intro k hk
    have := h23 k hk
    rw [hex1 k] at this
    exact ⟨fun h => this (Or.inl h), fun h => this (Or.inr h)⟩
  have h33' : ∀ k ∈ segKeys new₃, k ∉ segKeys new₂ ∧ k ∉ segKeys new₁ ∧ k ∉ segKeys seg := by
    intro k hk
    have h := h33 k hk
    rw [h25 k] at h
    constructor
    · exact fun hm => h (Or.inl hm)
    · have h' : k ∉ (headlinePass seg ocr).2 := fun hm => h (Or.inr hm)
      rw [hex1 k] at h'
      exact ⟨fun hm => h' (Or.inl hm), fun hm => h' (Or.inr hm)⟩
  have hkeysfull : segKeys full =
      ((segKeys seg ++ segKeys new₁) ++ segKeys new₂) ++ segKeys new₃ := by
    rw [hfull, segKeys_append, segKeys_append, segKeys_append, h31, h21, h11]
  refine ⟨?_, ?_, ?_, ?_⟩
  · intro k hk
    refine hpermk.symm.subset ?_
    rw [hkeysfull]
    exact List.mem_append_left _ (List.mem_append_left _ (List.mem_append_left _ hk))
  · refine hpermk.nodup_iff.mpr ?_
    rw [hkeysfull]
    refine List.nodup_append.mpr ⟨?_, h34, ?_⟩
    · refine List.nodup_append.mpr ⟨?_, h24, ?_⟩
      · refine List.nodup_append.mpr ⟨hnd, h14, ?_⟩
        intro a ha ha'
        exact h13 a ha' ha
      · intro a ha ha'
        rcases List.mem_append.mp ha with ha | ha
        · exact (h23' a ha').2 ha
        · exact (h23' a ha').1 ha
    · intro a ha ha'
      obtain ⟨hb2, hb1, hbs⟩ := h33' a ha'
      rcases List.mem_append.mp ha with ha | ha
      · rcases List.mem_append.mp ha with ha | ha
        · exact hbs ha
        · exact hb1 ha
      · exact hb2 ha
  · have hlen : out.length = full.length := hperm.length_eq
    rw [hlen, hfull]
    simp only [List.length_append]
    omega
  · rw [hO]
    have hp := pairwise_sortByLt keyLt keyLt_asym keyLt_total_trans full
    exact hp.imp (fun h => (keyLt_false_iff _ _).mp h)

/-- The Author pass with a Title row present is a single `addPass`. -/
theorem authorPass_eq_of_title (base : List SegRow) (ocr : List OcrRec)
    (ex : List (Int × Int)) (trow : SegRow)
    (hfb : base.find? (fun r => r.type == "Title") = some trow) :
    authorPass base ocr ex = some (addPass auRow
      (fun k => k.2 == 1 && decide (trow.block_num < k.1) &&
        intLtOpt k.1 (minInt ((base.filter
          (fun r => r.page_num == 1 && !(r.block_num == trow.block_num))).map
          (·.block_num))))
      (dedupKeys ocr) ([], ex)) := by
  unfold authorPass
  rw [hfb]

/-- A keyed row built by `mk` is in the pass output iff its key is. -/
theorem mem_of_keyed (mk : Int × Int → SegRow) (hmk : ∀ k, segKey (mk k) = k)
    (new : List SegRow) (horig : ∀ r ∈ new, r = mk (segKey r)) (b p : Int) :
    mk (b, p) ∈ new ↔ (b, p) ∈ segKeys new := by
  constructor
  · intro h
    have h2 : segKey (mk (b, p)) ∈ segKeys new := List.mem_map_of_mem _ h
    rwa [hmk] at h2
  · intro h
    obtain ⟨r, hr, hkr⟩ := List.mem_map.mp h
    have h2 : r = mk (b, p) := by rw [horig r hr, hkr]
    exact h2 ▸ hr

/-- A row whose type differs from the pass's type is not among its additions. -/
theorem not_mem_of_type (new : List SegRow) (mk : Int × Int → SegRow) (ty : String)
    (horig : ∀ r ∈ new, r = mk (segKey r)) (hty : ∀ k, (mk k).type = ty)
    (r : SegRow) (hr : r.type ≠ ty) : r ∉ new := by
  intro h
  exact hr (by rw [horig r h, hty])

/-- Claim C3 (amended): in the Author pass, `nextBlock` is the minimum
`block_num` among the already-classified page-1 rows whose `block_num`
differs from the Title block (which may be smaller than the Title block,
not only strictly greater); exactly the unclassified page-1 OCR keys `b`
with `titleBlock < b < nextBlock` are added with type Author.  In
particular, with Title at block 0 and Abstract at block 2 on one page,
block 1 is classified as Author. -/
theorem author_pass_characterization (seg : List SegRow) (ocr : List OcrRec)
    (out : List SegRow) (trow : SegRow)
    (ht : seg.find? (fun r => r.type == "Title") = some trow)
    (hnoau : ∀ r ∈ seg, r.type ≠ "Author")
    (hout : process_segmentation seg ocr = some out) :
    ∀ b p : Int, SegRow.mk "Author" b p ∈ out ↔
      ((b, p) ∈ dedupKeys ocr ∧ (b, p) ∉ (headlinePass seg ocr).2 ∧ p = 1 ∧
       trow.block_num < b ∧
       intLtOpt b (minInt (((seg ++ (headlinePass seg ocr).1).filter
         (fun r => r.page_num == 1 && !(r.block_num == trow.block_num))).map
         (·.block_num))) = true) := by
  intro b p
  obtain ⟨st2, hA, hO⟩ := process_eq seg ocr out hout
  obtain ⟨new₁, h11, h12, h13, h14, h15⟩ := headlinePass_spec seg ocr
  obtain ⟨new₃, h31, h32, h33, h34, h35⟩ :=
    sectionPass_spec (seg ++ (headlinePass seg ocr).1) ocr st2.2
  have hfb : (seg ++ (headlinePass seg ocr).1).find? (fun r => r.type == "Title") =
      some trow := by
    rw [List.find?_append, ht]
    rfl
  have hA2 := authorPass_eq_of_title (seg ++ (headlinePass seg ocr).1) ocr
    (headlinePass seg ocr).2 trow hfb
  have hst : st2 = addPass auRow
      (fun k => k.2 == 1 && decide (trow.block_num < k.1) &&
        intLtOpt k.1 (minInt (((seg ++ (headlinePass seg ocr).1).filter
          (fun r => r.page_num == 1 && !(r.block_num == trow.block_num))).map
          (·.block_num))))
      (dedupKeys ocr) ([], (headlinePass seg ocr).2) :=
    Option.some.inj (hA.symm.trans hA2)
  obtain ⟨new₂, g1, g2, g3, g4, g5⟩ := addPass_spec auRow _ (fun k => rfl)
    (dedupKeys ocr) [] (headlinePass seg ocr).2
  have h21 : st2.1 = new₂ := by
    rw [hst]
    simpa only [List.nil_append] using g1
  have hperm : List.Perm out ((seg ++ (headlinePass seg ocr).1) ++ st2.1 ++
      (sectionPass (seg ++ (headlinePass seg ocr).1) ocr st2.2).1) :=
    hO ▸ sortByLt_perm keyLt _
  have hmem : SegRow.mk "Author" b p ∈ out ↔ SegRow.mk "Author" b p ∈ new₂ := by
    rw [hperm.mem_iff]
    simp only [List.mem_append]
    constructor
    · rintro ((hs | hs) | hs)
      · rcases hs with hs | hs
        · exact absurd rfl (hnoau _ hs)
        · rw [h11] at hs
          exact absurd hs (not_mem_of_type new₁ hlRow "Headline" h12 (fun k => rfl) _
            (show "Author" ≠ "Headline" by decide))
      · rwa [h21] at hs
      · rw [h31] at hs
        exact absurd hs (not_mem_of_type new₃ seRow "Section" h32 (fun k => rfl) _
          (show "Author" ≠ "Section" by decide))
    · intro hs
      rw [← h21] at hs
      exact Or.inl (Or.inr hs)
  rw [hmem]
  have hmk : (SegRow.mk "Author" b p) = auRow (b, p) := rfl
  rw [hmk, mem_of_keyed auRow (fun k => rfl) new₂ g2 b p, g3 (b, p)]
  simp only [Bool.and_eq_true, beq_iff_eq, decide_eq_true_eq]
  constructor
  · rintro ⟨hd, ⟨⟨hp1, htb⟩, hlt⟩, hex⟩
    exact ⟨hd, hex, hp1, htb, hlt⟩
  · rintro ⟨hd, hex, hp1, htb, hlt⟩
    exact ⟨hd, ⟨⟨hp1, htb⟩, hlt⟩, hex⟩

/-- A guarded fold over a list with no element passing the guard is the identity. -/
theorem foldl_guard_nil {α β : Type} (p : β → Bool) (g : β → α → α) :
    ∀ (l : List β) (init : α), l.filter p = [] →
      l.foldl (fun st b => if p b then g b st else st) init = init := by
  intro l
  induction l with
  | nil => intro init _; rfl
  | cons r rs ih =>
    intro init hf
    rw [List.filter_cons] at hf
    by_cases hp : p r = true
    · rw [if_pos hp] at hf
      exact absurd hf (by simp)
    · rw [if_neg hp] at hf
      rw [List.foldl_cons, if_neg hp]
      exact ih init hf

/-- A guarded fold over a list whose filter is a singleton is that single step. -/
theorem foldl_guard_single {α β : Type} (p : β → Bool) (g : β → α → α) (a : β) :
    ∀ (l : List β) (init : α), l.filter p = [a] →
      l.foldl (fun st b => if p b then g b st else st) init = g a init := by
  intro l
  induction l with
  | nil => intro init h; exact absurd h (by simp)
  | cons r rs ih =>
    intro init hf
    rw [List.filter_cons] at hf
    by_cases hp : p r = true
    · rw [if_pos hp] at hf
      have h1 : r = a ∧ rs.filter p = [] := by
        have h2 := List.cons.injEq r (rs.filter p) a [] ▸ hf
        exact ⟨(List.cons.inj hf).1, (List.cons.inj hf).2⟩
      rw [List.foldl_cons, if_pos hp]
      rw [foldl_guard_nil p g rs (g r init) h1.2, h1.1]
    · rw [if_neg hp] at hf
      rw [List.foldl_cons, if_neg hp]
      exact ih init hf

/-- `minInt` is NaN exactly on the empty list. -/
theorem minInt_eq_none (l : List Int) : minInt l = none ↔ l = [] := by
  cases l with
  | nil => simp [minInt]
  | cons x xs =>
    simp only [minInt]
    cases hxs : minInt xs <;> simp

/-- The minimum is an element of the list. -/
theorem minInt_mem : ∀ (l : List Int) (m : Int), minInt l = some m → m ∈ l := by
  intro l
  induction l with
  | nil => intro m h; exact absurd h (by simp [minInt])
  | cons x xs ih =>
    intro m h
    rw [minInt] at h
    cases hxs : minInt xs with
    | none =>
      rw [hxs] at h
      exact (Option.some.inj h) ▸ List.mem_cons_self _ _
    | some m' =>
      rw [hxs] at h
      have hm : m = min x m' := (Option.some.inj h).symm
      rcases le_total x m' with hle | hle
      · rw [hm, min_eq_left hle]
        exact List.mem_cons_self _ _
      · rw [hm, min_eq_right hle]
        exact List.mem_cons_of_mem _ (ih m' hxs)

/-- The minimum is a lower bound. -/
theorem minInt_le : ∀ (l : List Int) (m : Int), minInt l = some m → ∀ x ∈ l, m ≤ x := by
  intro l
  induction l with
  | nil => intro m h; exact absurd h (by simp [minInt])
  | cons x xs ih =>
    intro m h y hy
    rw [minInt] at h
    cases hxs : minInt xs with
    | none =>
      rw [hxs] at h
      have hxse : xs = [] := (minInt_eq_none xs).mp hxs
      have hm : x = m := Option.some.inj h
      subst hxse
      rcases List.mem_cons.mp hy with rfl | hy
      · exact le_of_eq hm.symm
      · exact absurd hy (List.not_mem_nil _)
    | some m' =>
      rw [hxs] at h
      have hm : min x m' = m := Option.some.inj h
      rcases List.mem_cons.mp hy with rfl | hy
      · rw [← hm]
        exact min_le_left _ _
      · rw [← hm]
        exact le_trans (min_le_right _ _) (ih m' hxs _ hy)

/-- A non-empty list has a minimum below any of its elements. -/
theorem minInt_some_of_mem (l : List Int) (x : Int) (h : x ∈ l) :
    ∃ m, minInt l = some m ∧ m ≤ x := by
  cases hm : minInt l with
  | none =>
    rw [minInt_eq_none] at hm
    subst hm
    exact absurd h (List.not_mem_nil x)
  | some m => exact ⟨m, rfl, minInt_le l m hm x h⟩

/-- Membership in the deduplicated page list. -/
theorem mem_uniquePagesAux : ∀ (l : List OcrRec) (seen : List Int) (p : Int),
    p ∈ uniquePagesAux seen l ↔ (p ∉ seen ∧ ∃ r ∈ l, r.page_num = p) := by
  intro l
  induction l with
  | nil =>
    intro seen p
    simp [uniquePagesAux]
  | cons r rs ih =>
    intro seen p
    rw [uniquePagesAux]
    by_cases hs : r.page_num ∈ seen
    · rw [if_pos hs, ih]
      constructor
      · rintro ⟨hp, w, hw, hwp⟩
        exact ⟨hp, w, List.mem_cons_of_mem _ hw, hwp⟩
      · rintro ⟨hp, w, hw, hwp⟩
        rcases List.mem_cons.mp hw with rfl | hw
        · exact absurd (hwp ▸ hs) hp
        · exact ⟨hp, w, hw, hwp⟩
    · rw [if_neg hs]
      constructor
      · intro hp
        rcases List.mem_cons.mp hp with rfl | hp
        · exact ⟨hs, r, List.mem_cons_self _ _, rfl⟩
        · obtain ⟨hp1, w, hw, hwp⟩ := (ih _ _).mp hp
          exact ⟨fun hc => hp1 (List.mem_cons_of_mem _ hc), w,
            List.mem_cons_of_mem _ hw, hwp⟩
      · rintro ⟨hp, w, hw, hwp⟩
        rcases List.mem_cons.mp hw with rfl | hw
        · exact hwp ▸ List.mem_cons_self _ _
        · by_cases hpr : p = w.page_num ∨ p = r.page_num
          · rcases hpr with hpr | hpr
            · rw [hpr] at hp ⊢
              by_cases h2 : w.page_num = r.page_num
              · exact h2 ▸ List.mem_cons_self _ _
              · refine List.mem_cons_of_mem _ ((ih _ _).mpr ⟨?_, w, hw, rfl⟩)
                intro hc
                rcases List.mem_cons.mp hc with h3 | h3
                · exact h2 h3
                · exact hp h3
            · exact hpr ▸ List.mem_cons_self _ _
          · push_neg at hpr
            exact absurd hwp.symm hpr.1

/-- A key is a Headline candidate for title top `t` iff some OCR word
record of that block and page has `top < t`. -/
theorem mem_titleCands (ocr : List OcrRec) (t : Int) (b p : Int) :
    (b, p) ∈ titleCands ocr (some t) ↔
      ∃ w ∈ ocr, w.page_num = p ∧ w.block_num = b ∧ w.top < t := by
  unfold titleCands
  rw [List.mem_flatMap]
  constructor
  · rintro ⟨p', hp', hm⟩
    obtain ⟨w, hw, hweq⟩ := List.mem_map.mp hm
    obtain ⟨hwo, hcond⟩ := List.mem_filter.mp hw
    rw [Bool.and_eq_true, beq_iff_eq] at hcond
    have hlt : w.top < t := by simpa [intLtOpt] using hcond.2
    have hb : w.block_num = b := congrArg Prod.fst hweq
    have hp2 : p' = p := congrArg Prod.snd hweq
    exact ⟨w, hwo, by rw [hcond.1, hp2], hb, hlt⟩
  · rintro ⟨w, hw, hwp, hwb, hlt⟩
    refine ⟨p, ?_, ?_⟩
    · exact (mem_uniquePagesAux ocr [] p).mpr ⟨by simp, w, hw, hwp⟩
    · refine List.mem_map.mpr ⟨w, List.mem_filter.mpr ⟨hw, ?_⟩, by rw [hwb]⟩
      rw [Bool.and_eq_true, beq_iff_eq]
      exact ⟨hwp, by simp [intLtOpt, hlt]⟩

/-- The `top` component of `calculate_bbox` is the minimum word top of the block. -/
theorem bboxTop_eq (ocr : List OcrRec) (b p : Int) :
    bboxTop ocr b p =
      minInt ((ocr.filter (fun r => r.block_num == b && r.page_num == p)).map (·.top)) := rfl

/-- Testing each word record's top against the threshold individually is
equivalent to testing the block's bbox top (its minimum word top). -/
theorem exists_top_lt_iff (ocr : List OcrRec) (b p t : Int) :
    (∃ w ∈ ocr, w.page_num = p ∧ w.block_num = b ∧ w.top < t) ↔
      (∃ m, bboxTop ocr b p = some m ∧ m < t) := by
  rw [bboxTop_eq]
  constructor
  · rintro ⟨w, hw, hwp, hwb, hlt⟩
    have hmem : w.top ∈
        (ocr.filter (fun r => r.block_num == b && r.page_num == p)).map (·.top) := by
      refine List.mem_map.mpr ⟨w, List.mem_filter.mpr ⟨hw, ?_⟩, rfl⟩
      rw [Bool.and_eq_true, beq_iff_eq, beq_iff_eq]
      exact ⟨hwb, hwp⟩
    obtain ⟨m, hm, hle⟩ := minInt_some_of_mem _ _ hmem
    exact ⟨m, hm, lt_of_le_of_lt hle hlt⟩
  · rintro ⟨m, hm, hlt⟩
    obtain ⟨w, hw, hwt⟩ := List.mem_map.mp (minInt_mem _ m hm)
    obtain ⟨hwo, hcond⟩ := List.mem_filter.mp hw
    rw [Bool.and_eq_true, beq_iff_eq, beq_iff_eq] at hcond
    refine ⟨w, hwo, hcond.2, hcond.1, ?_⟩
    rw [show w.top = m from hwt]
    exact hlt

/-- With exactly one Title row the Headline pass is a single `addPass`. -/
theorem headlinePass_single_title (seg : List SegRow) (ocr : List OcrRec) (trow : SegRow)
    (ht : seg.filter (fun r => r.type == "Title") = [trow]) :
    headlinePass seg ocr = addPass hlRow (fun _ => true)
      (titleCands ocr (bboxTop ocr trow.block_num trow.page_num)) ([], segKeys seg) := by
  unfold headlinePass
  exact foldl_guard_single (fun r => r.type == "Title")
    (fun r st => addPass hlRow (fun _ => true)
      (titleCands ocr (bboxTop ocr r.block_num r.page_num)) st) trow seg ([], segKeys seg) ht

/-- Claim C4: with exactly one Title row whose key matches at least one OCR
record (bbox top `t`), a block on any page appears as a Headline row in the
output iff it is not a key of the input table and its bbox top (the minimum
of the block's record tops) is strictly less than `t`. -/
theorem headline_pass_characterization (seg : List SegRow) (ocr : List OcrRec)
    (out : List SegRow) (trow : SegRow) (t : Int)
    (ht : seg.filter (fun r => r.type == "Title") = [trow])
    (htop : bboxTop ocr trow.block_num trow.page_num = some t)
    (hnohl : ∀ r ∈ seg, r.type ≠ "Headline")
    (hout : process_segmentation seg ocr = some out) :
    ∀ b p : Int, SegRow.mk "Headline" b p ∈ out ↔
      ((b, p) ∉ segKeys seg ∧ ∃ m, bboxTop ocr b p = some m ∧ m < t) := by
  intro b p
  obtain ⟨st2, hA, hO⟩ := process_eq seg ocr out hout
  have hhp : headlinePass seg ocr = addPass hlRow (fun _ => true)
      (titleCands ocr (some t)) ([], segKeys seg) := by
    rw [headlinePass_single_title seg ocr trow ht, htop]
  obtain ⟨new₁, g1, g2, g3, g4, g5⟩ := addPass_spec hlRow (fun _ => true) (fun k => rfl)
    (titleCands ocr (some t)) [] (segKeys seg)
  obtain ⟨new₂, h21, h22, h23, h24, h25⟩ := authorPass_some_spec _ ocr _ st2 hA
  obtain ⟨new₃, h31, h32, h33, h34, h35⟩ :=
    sectionPass_spec (seg ++ (headlinePass seg ocr).1) ocr st2.2
  have h1l : (headlinePass seg ocr).1 = new₁ := by
    rw [hhp]
    simpa only [List.nil_append] using g1
  have hperm : List.Perm out ((seg ++ (headlinePass seg ocr).1) ++ st2.1 ++
      (sectionPass (seg ++ (headlinePass seg ocr).1) ocr st2.2).1) :=
    hO ▸ sortByLt_perm keyLt _
  have hmem : SegRow.mk "Headline" b p ∈ out ↔ SegRow.mk "Headline" b p ∈ new₁ := by
    rw [hperm.mem_iff]
    simp only [List.mem_append]
    constructor
    · rintro ((hs | hs) | hs)
      · rcases hs with hs | hs
        · exact absurd rfl (hnohl _ hs)
        · rwa [h1l] at hs
      · rw [h21] at hs
        exact absurd hs (not_mem_of_type new₂ auRow "Author" h22 (fun k => rfl) _
          (show "Headline" ≠ "Author" by decide))
      · rw [h31] at hs
        exact absurd hs (not_mem_of_type new₃ seRow "Section" h32 (fun k => rfl) _
          (show "Headline" ≠ "Section" by decide))
    · intro hs
      rw [← h1l] at hs
      exact Or.inl (Or.inl (Or.inr hs))
  rw [hmem]
  rw [show SegRow.mk "Headline" b p = hlRow (b, p) from rfl,
    mem_of_keyed hlRow (fun k => rfl) new₁ g2 b p, g3 (b, p)]
  constructor
  · rintro ⟨hc, -, hex⟩
    exact ⟨hex, (exists_top_lt_iff ocr b p t).mp ((mem_titleCands ocr t b p).mp hc)⟩
  · rintro ⟨hex, hm⟩
    exact ⟨(mem_titleCands ocr t b p).mpr ((exists_top_lt_iff ocr b p t).mpr hm), rfl, hex⟩

/-- Claim C10: when the sparse segmentation table has no Title row and the
OCR table has a page-1 key not present in the table, `process_segmentation`
does not return a table: the Author-pass guard compares the unset Title
block (`None`) with a block number and the source raises. -/
theorem process_segmentation_no_title_none (seg : List SegRow) (ocr : List OcrRec)
    (hnt : ∀ r ∈ seg, r.type ≠ "Title")
    (hk : ∃ k ∈ dedupKeys ocr, k.2 = 1 ∧ k ∉ segKeys seg) :
    process_segmentation seg ocr = none := by
  have hfe : seg.filter (fun r => r.type == "Title") = [] := by
    rw [List.filter_eq_nil_iff]
    intro r hr
    simp only [beq_iff_eq]
    exact hnt r hr
  have hhp : headlinePass seg ocr = ([], segKeys seg) := by
    unfold headlinePass
    exact foldl_guard_nil _ _ seg ([], segKeys seg) hfe
  have hfind : (seg ++ (headlinePass seg ocr).1).find? (fun r => r.type == "Title") =
      none := by
    rw [hhp, List.append_nil, List.find?_eq_none]
    intro r hr
    simp only [beq_iff_eq]
    exact hnt r hr
  have hany : (dedupKeys ocr).any
      (fun k => !(decide (k ∈ (headlinePass seg ocr).2)) && k.2 == 1) = true := by
    obtain ⟨k, hkm, hk1, hks⟩ := hk
    rw [hhp]
    refine List.any_eq_true.mpr ⟨k, hkm, ?_⟩
    rw [Bool.and_eq_true, Bool.not_eq_true', beq_iff_eq]
    exact ⟨decide_eq_false hks, hk1⟩
  have hA : authorPass (seg ++ (headlinePass seg ocr).1) ocr (headlinePass seg ocr).2 =
      none := by
    unfold authorPass
    rw [hfind, if_pos hany]
  unfold process_segmentation
  rw [hA]

/-- Claim C3 (counterexample): with Title at block 2 and classified blocks 0
and 5 on page 1, the claim's `nextBlock` (minimum classified page-1 block
strictly greater than the Title block) is 5, and block 3 is unclassified
with `2 < 3 < 5`, so the claim requires an Author row for block 3 — but the
code's `nextBlock` is `min {0, 5} = 0` and no Author row is produced. -/
theorem author_pass_counterexample :
    headlinePass c3seg c3ocr = ([], segKeys c3seg) ∧
    minInt ((c3seg.filter (fun r => r.page_num == 1 && decide (2 < r.block_num))).map
      (·.block_num)) = some 5 ∧
    (3, 1) ∈ dedupKeys c3ocr ∧ (3, 1) ∉ segKeys c3seg ∧
    ((2 : Int) < 3 ∧ (3 : Int) < 5) ∧
    process_segmentation c3seg c3ocr = some c3out ∧
    SegRow.mk "Author" 3 1 ∉ c3out := by decide

/-- Witness for `author_pass_characterization` at the spec's scenario:
Title at block 0, Abstract at block 2, so block 1 becomes Author. -/
theorem author_pass_characterization_witness : SegRow.mk "Author" 1 1 ∈ c3wout := by
  have h := author_pass_characterization c3wseg c3wocr c3wout ⟨"Title", 0, 1⟩
    (by decide) (by decide) (by decide)
  exact (h 1 1).mpr (by decide)

/-- Witness for `headline_pass_characterization`: block 0 lies above the
Title block and becomes a Headline row. -/
theorem headline_pass_characterization_witness : SegRow.mk "Headline" 0 1 ∈ c4out := by
  have h := headline_pass_characterization c4seg c4ocr c4out ⟨"Title", 1, 1⟩ 50
    (by decide) (by decide) (by decide) (by decide)
  exact (h 0 1).mpr ⟨by decide, 5, by decide, by decide⟩

/-- Witness for `process_segmentation_no_title_none` at a concrete
title-less table. -/
theorem process_segmentation_no_title_none_witness :
    process_segmentation c10seg c10ocr = none :=
  process_segmentation_no_title_none c10seg c10ocr (by decide)
    ⟨(1, 1), by decide, rfl, by decide⟩

/-- Witness for `process_segmentation_invariants` at a concrete run with
Headline, Author and Section additions. -/
theorem process_segmentation_invariants_witness :
    (segKeys c1out).Nodup ∧ c1seg.length ≤ c1out.length ∧ c1out.Pairwise segLe := by
  have h := process_segmentation_invariants c1seg c1ocr c1out (by decide) (by decide)
  exact ⟨h.2.1, h.2.2.1, h.2.2.2⟩
